import Mathlib

/-!
# Verification of the PSGNets decoding heads (`psgnets/models/decoding.py`)

Shallow embedding of the decoding-head algorithms of the repository:

* `spatial_attribute_decoder` — local polynomial ("Taylor expansion") rendering of
  per-node attributes at sampled pixel offsets from the node centroid;
* `future_attribute_decoder` — combination of forward/backward dense flow fields
  along the time axis, and extraction of the per-node backward flow;
* `shape_decoder` — softmax/argmax emission of a per-pixel distribution over nodes
  and compositing of attributes with that distribution;
* the `Decoder` wrapper's keyword-argument merging (`build_model` / `__call__`);
* the Layout Oracle (`DimensionDict`) whose implementation is not under `src/` and
  is therefore modelled from the specification where stated.

Tensor operations that act pointwise across the batch/pixel axes are embedded at a
single (arbitrary) position of those axes, with exact rational arithmetic standing
for the float arithmetic of the source; the nonlinear softmax stage is embedded
over the reals.
-/

namespace PSGNets

/-! ## Future-frame decoding: combining the flow fields (`future_attribute_decoder`)

`fwd_flows` and `bck_flows` are dense per-pixel flow fields with a leading time
axis of length `T`.  The source combines them along the time axis by

```
flows = tf.concat([
    -bck_flows[:,0:1],
    0.5 * (fwd_flows[:,1:-1] - bck_flows[:,1:-1]),
    fwd_flows[:,-1:]
], axis=1)
```

All three slices act pointwise in the pixel and component axes, so each list
element below stands for the field's value at one arbitrary fixed pixel and
component; the list index is the time step.  Python slice `[0:1]` is `take 1`,
`[1:-1]` is `drop 1` then `dropLast`, and `[-1:]` is `drop (length - 1)`. -/

def combine_flows (fwd_flows bck_flows : List ℚ) : List ℚ :=
  ((bck_flows.take 1).map (fun b => -b)) ++
  (List.zipWith (fun f b => (1/2 : ℚ) * (f - b))
    ((fwd_flows.drop 1).dropLast) ((bck_flows.drop 1).dropLast)) ++
  (fwd_flows.drop (fwd_flows.length - 1))

/-! ## Spatial-attribute decoding (`spatial_attribute_decoder`)

The head multiplies each sampled latent coefficient vector by the validity of the
owning node and of the sampled segment, evaluates the polynomial basis
`[1]`, `[1, dH, dW]` or `[1, dH, dW, dH², dH·dW, dW²]` against the coefficient
slices of one attribute, and applies the attribute's fixed post-processing
function.  Attributes are embedded componentwise (one scalar per coefficient
chunk, as holds e.g. for `pred_depths`). -/

inductive ExpansionMethod where
  | constant
  | linear
  | quadratic
deriving DecidableEq, Repr

/-- `{'constant':0, 'linear':2, 'quadratic':5}[method]` -/
def n_coeffs_per_dim : ExpansionMethod → ℕ
  | .constant => 0
  | .linear => 2
  | .quadratic => 5

/-- `deltas = [1.0] + ([dH,dW] if method != 'constant' else [])
             + ([dH*dH, dH*dW, dW*dW] if method == 'quadratic' else [])` -/
def poly_deltas (method : ExpansionMethod) (dH dW : ℚ) : List ℚ :=
  [1] ++ (if method ≠ .constant then [dH, dW] else []) ++
    (if method = .quadratic then [dH*dH, dH*dW, dW*dW] else [])

/-- One attribute's decoded value from its (already validity-scaled) coefficient
slice: `func(tf.add_n([av * deltas[i] for i, av in enumerate(attr_vec)]))` where
`attr_vec` is the slice split into `1 + n_coeffs_per_dim` chunks. -/
def spatial_decode_attr (method : ExpansionMethod) (func : ℚ → ℚ)
    (attr_vec : List ℚ) (dH dW : ℚ) : ℚ :=
  func (List.zipWith (· * ·) attr_vec (poly_deltas method dH dW)).sum

/-- `valid_vectors_to_decode = tf.gather_nd(valid_nodes, segments) * valid_segments_to_decode`,
at one sampled pixel: the owning node's validity times the sampled segment validity. -/
def valid_vectors_to_decode (valid_node valid_segment : ℚ) : ℚ :=
  valid_node * valid_segment

/-- `latent_vectors_to_decode = tf.gather_nd(latent_vec, segments) * valid_vectors_to_decode`:
the owning node's latent coefficient vector scaled by the combined validity. -/
def latent_vectors_to_decode (latent_vec : List ℚ) (valid_node valid_segment : ℚ) : List ℚ :=
  latent_vec.map (fun x => x * valid_vectors_to_decode valid_node valid_segment)

/-- The full per-pixel, per-attribute decoded prediction
(`spatial_pred_attrs[attr]` at one sampled pixel): validity scaling of the
gathered latent slice, polynomial evaluation, then the attribute's postproc. -/
def spatial_pred_attr (method : ExpansionMethod) (func : ℚ → ℚ)
    (attr_slice : List ℚ) (valid_node valid_segment dH dW : ℚ) : ℚ :=
  spatial_decode_attr method func
    (latent_vectors_to_decode attr_slice valid_node valid_segment) dH dW

/-- The postprocessing function of `pred_depths` in `DEFAULT_PRED_DIMS`:
`lambda z: tf.minimum(z, -0.1)`. -/
def pred_depths_postproc (z : ℚ) : ℚ := min z (-1/10)

/-! ## Helper lemmas about `combine_flows` -/

lemma combine_flows_length (fwd bck : List ℚ) (T : ℕ) (hf : fwd.length = T)
    (hb : bck.length = T) (hT : 2 ≤ T) :
    (combine_flows fwd bck).length = T := by
  simp only [combine_flows, List.length_append, List.length_map, List.length_take,
    List.length_zipWith, List.length_dropLast, List.length_drop, hf, hb]
  omega

lemma combine_flows_first (fwd bck : List ℚ) (T : ℕ) (hf : fwd.length = T)
    (hb : bck.length = T) (hT : 2 ≤ T) :
    (combine_flows fwd bck).getD 0 0 = -(bck.getD 0 0) := by
  have h1 : ((bck.take 1).map (fun b => -b)).length = 1 := by
    simp [hb]; omega
  rw [combine_flows, List.append_assoc, List.getD_append _ _ _ _ (by omega)]
  rcases bck with - | ⟨b, bs⟩
  · simp at hb; omega
  · simp

lemma combine_flows_last (fwd bck : List ℚ) (T : ℕ) (hf : fwd.length = T)
    (hb : bck.length = T) (hT : 2 ≤ T) :
    (combine_flows fwd bck).getD (T-1) 0 = fwd.getD (T-1) 0 := by
  have hAB : (((bck.take 1).map (fun b => -b)) ++
      (List.zipWith (fun f b => (1/2 : ℚ) * (f - b))
        ((fwd.drop 1).dropLast) ((bck.drop 1).dropLast))).length = T - 1 := by
    simp [hf, hb]; omega
  rw [combine_flows, List.getD_eq_getElem?_getD, List.getElem?_append_right (by omega),
    hAB, Nat.sub_self, List.getElem?_drop, Nat.add_zero, ← List.getD_eq_getElem?_getD, hf]

lemma combine_flows_interior (fwd bck : List ℚ) (T : ℕ) (hf : fwd.length = T)
    (hb : bck.length = T) (hT : 2 ≤ T) (t : ℕ) (ht0 : 0 < t) (ht1 : t < T - 1) :
    (combine_flows fwd bck).getD t 0 = (1/2 : ℚ) * (fwd.getD t 0 - bck.getD t 0) := by
  have hA : (((bck.take 1).map (fun b => -b))).length = 1 := by simp [hb]; omega
  have hB : (List.zipWith (fun f b => (1/2 : ℚ) * (f - b))
      ((fwd.drop 1).dropLast) ((bck.drop 1).dropLast)).length = T - 2 := by
    simp [hf, hb]; omega
  have hxs : ((fwd.drop 1).dropLast)[t-1]? = some (fwd.getD t 0) := by
    have h1 : 1 + (t - 1) = t := by omega
    have h2 : t < fwd.length := by omega
    rw [List.dropLast_eq_take, List.getElem?_take_of_lt (by simp [hf]; omega),
      List.getElem?_drop, h1, List.getElem?_eq_getElem h2,
      List.getD_eq_getElem?_getD, List.getElem?_eq_getElem h2]
    rfl
  have hys : ((bck.drop 1).dropLast)[t-1]? = some (bck.getD t 0) := by
    have h1 : 1 + (t - 1) = t := by omega
    have h2 : t < bck.length := by omega
    rw [List.dropLast_eq_take, List.getElem?_take_of_lt (by simp [hb]; omega),
      List.getElem?_drop, h1, List.getElem?_eq_getElem h2,
      List.getD_eq_getElem?_getD, List.getElem?_eq_getElem h2]
    rfl
  rw [combine_flows, List.append_assoc, List.getD_eq_getElem?_getD,
    List.getElem?_append_right (by omega), hA,
    List.getElem?_append_left (by omega), List.getElem?_zipWith, hxs, hys]
  rfl

/-! ## Claim C1 — boundary rules of the combined per-time-step flow field -/

/-- C1 (counterexample): the claim that every interior time step of the combined
flow field is the average of the forward and backward fields fails on the code.
With forward field `[1, 2, 3]` and backward field `[4, 6, 6]` over `T = 3` time
steps, the combined flow at the interior step `t = 1` is `(2 - 6)/2 = -2`, while
the average of the forward and backward fields there is `(2 + 6)/2 = 4`. -/
theorem future_flows_interior_average_cex :
    (combine_flows [1, 2, 3] [4, 6, 6]).getD 1 0 ≠
      (([1, 2, 3] : List ℚ).getD 1 0 + ([4, 6, 6] : List ℚ).getD 1 0) / 2 := by
  norm_num [combine_flows]

/-- C1 (amended): in `future_attribute_decoder`, for every input whose forward and
backward dense flow fields are defined over `T ≥ 2` time steps, the combined flow
field has `T` time steps; the flow used at the first time step is exactly the
negated backward field, the flow used at the last time step is exactly the forward
field, and the flow used at every interior time step is the average of the forward
field and the *negated* backward field. -/
theorem future_flows_boundary_rules (fwd bck : List ℚ) (T : ℕ)
    (hf : fwd.length = T) (hb : bck.length = T) (hT : 2 ≤ T) :
    (combine_flows fwd bck).length = T ∧
    (combine_flows fwd bck).getD 0 0 = -(bck.getD 0 0) ∧
    (combine_flows fwd bck).getD (T-1) 0 = fwd.getD (T-1) 0 ∧
    ∀ t, 0 < t → t < T - 1 →
      (combine_flows fwd bck).getD t 0 = (fwd.getD t 0 + -(bck.getD t 0)) / 2 := by
  refine ⟨combine_flows_length fwd bck T hf hb hT,
    combine_flows_first fwd bck T hf hb hT,
    combine_flows_last fwd bck T hf hb hT, fun t ht0 ht1 => ?_⟩
  rw [combine_flows_interior fwd bck T hf hb hT t ht0 ht1]
  ring

/-- C1 (witness): the amended boundary rules evaluated at the concrete input
`fwd = [1, 2, 3]`, `bck = [4, 6, 6]`, `T = 3`. -/
theorem future_flows_boundary_rules_witness :
    (([1, 2, 3] : List ℚ).length = 3 ∧ ([4, 6, 6] : List ℚ).length = 3 ∧ 2 ≤ 3) ∧
    ((combine_flows [1, 2, 3] [4, 6, 6]).length = 3 ∧
      (combine_flows [1, 2, 3] [4, 6, 6]).getD 0 0 = -(([4, 6, 6] : List ℚ).getD 0 0) ∧
      (combine_flows [1, 2, 3] [4, 6, 6]).getD (3-1) 0 = ([1, 2, 3] : List ℚ).getD (3-1) 0 ∧
      ∀ t, 0 < t → t < 3 - 1 →
        (combine_flows [1, 2, 3] [4, 6, 6]).getD t 0 =
          (([1, 2, 3] : List ℚ).getD t 0 + -(([4, 6, 6] : List ℚ).getD t 0)) / 2) :=
  ⟨⟨rfl, rfl, by norm_num⟩,
    future_flows_boundary_rules [1, 2, 3] [4, 6, 6] 3 rfl rfl (by norm_num)⟩

/-! ## Claim C5 — `method='constant'` decodes the bias coefficient -/

/-- C5 (counterexample): the decoded value at a sampled pixel is the attribute's
post-processing function applied to the bias coefficient, not the bias coefficient
itself.  With the `pred_depths` post-processing `z ↦ min(z, -0.1)` of
`DEFAULT_PRED_DIMS`, a valid node whose bias coefficient is `1` decodes to
`-1/10 ≠ 1` under `method='constant'`. -/
theorem constant_method_postproc_cex :
    spatial_pred_attr .constant pred_depths_postproc [1] 1 1 0 0 ≠ 1 := by
  norm_num [spatial_pred_attr, spatial_decode_attr, latent_vectors_to_decode,
    valid_vectors_to_decode, poly_deltas, pred_depths_postproc]

/-- C5 (amended): in `spatial_attribute_decoder` with `method='constant'`, for
every sampled pixel owned by a valid node in a valid segment, and every decoded
attribute, the decoded value equals the attribute's post-processing function
applied to the owning node's bias coefficient, with no dependence on the pixel's
offset `(dH, dW)` from the node centroid. -/
theorem constant_method_decodes_bias (func : ℚ → ℚ) (bias dH dW dH' dW' : ℚ) :
    spatial_pred_attr .constant func [bias] 1 1 dH dW = func bias ∧
    spatial_pred_attr .constant func [bias] 1 1 dH dW =
      spatial_pred_attr .constant func [bias] 1 1 dH' dW' := by
  constructor <;>
    simp [spatial_pred_attr, spatial_decode_attr, latent_vectors_to_decode,
      valid_vectors_to_decode, poly_deltas]

/-! ## Claim C6 — invalid nodes contribute zeroed, not dropped, predictions -/

lemma zipWith_mul_map_zero_sum (l m : List ℚ) :
    (List.zipWith (· * ·) (l.map (fun _ => (0 : ℚ))) m).sum = 0 := by
  induction l generalizing m with
  | nil => simp
  | cons a as ih =>
    cases m with
    | nil => simp
    | cons b bs =>
      simp only [List.map_cons, List.zipWith_cons_cons, List.sum_cons, zero_mul, zero_add]
      exact ih bs

/-- C6 (counterexample): at a pixel whose owning node is invalid the decoded
prediction is the post-processing function applied to zero, which need not be
zero.  With the `pred_depths` post-processing `z ↦ min(z, -0.1)` of
`DEFAULT_PRED_DIMS` and an invalid owning node, the emitted prediction is
`-1/10 ≠ 0`. -/
theorem invalid_node_zero_output_cex :
    spatial_pred_attr .quadratic pred_depths_postproc [5, 0, 0, 0, 0, 0] 0 1 0 0 ≠ 0 := by
  simp +decide [spatial_pred_attr, spatial_decode_attr, latent_vectors_to_decode,
    valid_vectors_to_decode, poly_deltas, pred_depths_postproc]
  norm_num [min_def]

/-- C6 (amended): in `spatial_attribute_decoder`, for every sampled pixel whose
owning node is marked invalid or whose segment is invalid after normalization, the
latent coefficients are zeroed so the decoded polynomial evaluates to zero before
post-processing (the per-attribute emitted prediction is the attribute's
post-processing function applied to zero — zeroed input, not a dropped sample),
and the returned validity mask at that pixel is zero so callers can mask. -/
theorem invalid_node_zeroed_predictions (method : ExpansionMethod) (func : ℚ → ℚ)
    (attr_slice : List ℚ) (valid_node valid_segment dH dW : ℚ)
    (h : valid_node = 0 ∨ valid_segment = 0) :
    spatial_pred_attr method (fun z => z) attr_slice valid_node valid_segment dH dW = 0 ∧
    spatial_pred_attr method func attr_slice valid_node valid_segment dH dW = func 0 ∧
    valid_vectors_to_decode valid_node valid_segment = 0 := by
  have hv : valid_vectors_to_decode valid_node valid_segment = 0 := by
    rcases h with h | h <;> simp [valid_vectors_to_decode, h]
  have hz : ∀ g : ℚ → ℚ,
      spatial_pred_attr method g attr_slice valid_node valid_segment dH dW = g 0 := by
    intro g
    have hlat : latent_vectors_to_decode attr_slice valid_node valid_segment =
        attr_slice.map (fun _ => 0) := by
      simp [latent_vectors_to_decode, hv]
    rw [spatial_pred_attr, hlat, spatial_decode_attr, zipWith_mul_map_zero_sum]
  exact ⟨hz (fun z => z), hz func, hv⟩

/-- C6 (witness): the amended statement evaluated at an invalid owning node
(`valid_node = 0`, `valid_segment = 1`) with the `pred_depths` post-processing. -/
theorem invalid_node_zeroed_predictions_witness :
    ((0 : ℚ) = 0 ∨ (1 : ℚ) = 0) ∧
    (spatial_pred_attr .quadratic (fun z => z) [5, 0, 0, 0, 0, 0] 0 1 0 0 = 0 ∧
      spatial_pred_attr .quadratic pred_depths_postproc [5, 0, 0, 0, 0, 0] 0 1 0 0 =
        pred_depths_postproc 0 ∧
      valid_vectors_to_decode 0 1 = 0) :=
  ⟨Or.inl rfl, invalid_node_zeroed_predictions .quadratic pred_depths_postproc
    [5, 0, 0, 0, 0, 0] 0 1 0 0 (Or.inl rfl)⟩

/-! ## Pixel-location sampling (`spatial_attribute_decoder`, lines 162–168)

The clamp `P = np.minimum(num_sample_points, H*W)` is in the source.  The sampler
itself (`rendering.sample_image_inds`) is an external primitive whose
implementation is not under `src/`. -/

/-- `P = np.minimum(num_sample_points, H*W)` — the requested sample budget is
silently clamped to the number of available pixels. -/
def num_points_P (num_sample_points HW : ℕ) : ℕ := min num_sample_points HW

/-- Modelled from the spec: `rendering.sample_image_inds`, the pixel-location
sampler, is not under `src/`.  Per the spec it samples a fixed budget of `P`
distinct pixel locations out of the `H·W` grid, "deterministic or random
depending on an evaluation/training flag".  Pixel locations are flattened grid
indices; deterministic mode is modelled as the first `P` locations in raster
order, and random mode as `P` locations of the grid rotated by the current
random-stream value, so the draw depends on the random state. -/
def sample_image_inds (P HW : ℕ) (train : Bool) (rng : ℕ) : List ℕ :=
  if train then ((List.range HW).map (fun i => (i + rng) % HW)).take P
  else (List.range HW).take P

/-! ## Claim C7 — oversized sample budgets are clamped, never an error -/

lemma sample_image_inds_nodup (P HW : ℕ) (train : Bool) (rng : ℕ) :
    (sample_image_inds P HW train rng).Nodup := by
  unfold sample_image_inds
  split
  · refine (List.take_sublist _ _).nodup (List.Nodup.map_on ?_ (List.nodup_range HW))
    intro i hi j hj hij
    rw [List.mem_range] at hi hj
    have h1 : (i + rng) % HW = (j + rng) % HW := hij
    have h2 : i % HW = j % HW := Nat.ModEq.add_right_cancel' rng h1
    rwa [Nat.mod_eq_of_lt hi, Nat.mod_eq_of_lt hj] at h2
  · exact (List.take_sublist _ _).nodup (List.nodup_range HW)

/-- C7: in `spatial_attribute_decoder`, for every requested sample budget
exceeding the `H*W` available pixels, the budget is silently clamped
(`P = np.minimum(num_sample_points, H*W)`), yielding exactly `H*W` distinct
sampled pixel locations; and no budget ever yields more than `H*W` samples. -/
theorem sample_budget_clamped (num_sample_points H W : ℕ) (train : Bool) (rng : ℕ)
    (h : H * W < num_sample_points) :
    num_points_P num_sample_points (H * W) = H * W ∧
    (sample_image_inds (num_points_P num_sample_points (H * W)) (H * W) train rng).length
      = H * W ∧
    (sample_image_inds (num_points_P num_sample_points (H * W)) (H * W) train rng).Nodup ∧
    ∀ P', (sample_image_inds P' (H * W) train rng).length ≤ H * W := by
  have hP : num_points_P num_sample_points (H * W) = H * W := by
    unfold num_points_P; omega
  refine ⟨hP, ?_, sample_image_inds_nodup _ _ _ _, fun P' => ?_⟩
  · unfold sample_image_inds
    split <;> simp [hP]
  · unfold sample_image_inds
    split <;> simp

/-- C7 (witness): a budget of `20` samples on a `4·4` grid is clamped to `16`
distinct samples. -/
theorem sample_budget_clamped_witness :
    4 * 4 < 20 ∧
    (num_points_P 20 (4 * 4) = 4 * 4 ∧
      (sample_image_inds (num_points_P 20 (4 * 4)) (4 * 4) true 7).length = 4 * 4 ∧
      (sample_image_inds (num_points_P 20 (4 * 4)) (4 * 4) true 7).Nodup ∧
      ∀ P', (sample_image_inds P' (4 * 4) true 7).length ≤ 4 * 4) :=
  ⟨by norm_num, sample_budget_clamped 20 4 4 true 7 (by norm_num)⟩

/-! ## Claim C9 — determinism of a decode call

The only data-dependent source of nondeterminism across the three heads is the
training-mode pixel sampler; the random stream it draws from is modelled
explicitly (see `sample_image_inds`). -/

/-- Modelled from the spec: the host runtime's random stream, drawn once per
training-mode sampling call; drawing advances the stream. -/
structure RngState where
  seed : ℕ
deriving DecidableEq, Repr

/-- One draw from the random stream: the current value, and the advanced state. -/
def RngState.draw (s : RngState) : ℕ × RngState := (s.seed, ⟨s.seed + 1⟩)

/-- The `sampled_hw_inds` output of one `spatial_attribute_decoder` call together
with the random state after the call. -/
def spatial_decoder_sampled_inds (num_sample_points HW : ℕ) (train : Bool)
    (s : RngState) : List ℕ × RngState :=
  (sample_image_inds (num_points_P num_sample_points HW) HW train s.draw.1, s.draw.2)

/-- Decoding the same inputs twice in succession: the second call sees the random
state left by the first. -/
def spatial_decoder_sampled_inds_twice (num_sample_points HW : ℕ) (train : Bool)
    (s : RngState) : List ℕ × List ℕ :=
  (  (spatial_decoder_sampled_inds num_sample_points HW train s).1,
     (spatial_decoder_sampled_inds num_sample_points HW train
       (spatial_decoder_sampled_inds num_sample_points HW train s).2).1)

/-- C9 (counterexample): decoding the same inputs twice with identical
configuration (`train = true`) does *not* yield bit-identical outputs: with a
budget of one sample on a two-pixel grid and initial random state `0`, the first
call samples pixel `[0]` and the second call samples pixel `[1]`, because the
training-mode sampler draws from the advancing random stream. -/
theorem decode_twice_train_random_cex :
    (spatial_decoder_sampled_inds_twice 1 2 true ⟨0⟩).1 ≠
      (spatial_decoder_sampled_inds_twice 1 2 true ⟨0⟩).2 := by
  decide

/-- C9 (amended): each decoding head is a deterministic function of its inputs,
configuration, and the sampler's random state; with `train = false` the sampling
is deterministic, so decoding the same inputs twice yields bit-identical outputs
and the result does not depend on the random state at all. -/
theorem decode_deterministic_eval (num_sample_points HW : ℕ) (s s' : RngState) :
    (spatial_decoder_sampled_inds_twice num_sample_points HW false s).1 =
      (spatial_decoder_sampled_inds_twice num_sample_points HW false s).2 ∧
    (spatial_decoder_sampled_inds num_sample_points HW false s).1 =
      (spatial_decoder_sampled_inds num_sample_points HW false s').1 := by
  constructor <;>
    simp [spatial_decoder_sampled_inds_twice, spatial_decoder_sampled_inds,
      sample_image_inds]

/-! ## Claim C8 — backward flow extraction (`future_attribute_decoder`, lines 244–249)

```
nodes_flows = Dims.get_attr_dims(nodes, *flows_dims, ...)
if back_flows_dims is not None:
    nodes_back_flows = Dims.get_attr_dims(nodes, *back_flows_dims, ...)
    assert nodes_back_flows.shape == nodes_flows.shape, (nodes_back_flows)
else:
    nodes_back_flows = -1. * nodes_flows
```
A tensor is embedded as its static shape plus its (flattened) entries; the failed
assertion is an immediate `Except.error`. -/

structure NodeTensor where
  shape : List ℕ
  data : ℕ → ℚ

/-- `-1. * nodes_flows` -/
def NodeTensor.negate (t : NodeTensor) : NodeTensor :=
  ⟨t.shape, fun i => (-1) * t.data i⟩

/-- The per-node backward flow used by `future_attribute_decoder`: the extracted
backward-flow attribute when `back_flows_dims` is supplied (with the shape
assertion), else the negated forward flow. -/
def get_nodes_back_flows (nodes_flows : NodeTensor) (back_flows : Option NodeTensor) :
    Except String NodeTensor :=
  match back_flows with
  | some b => if b.shape = nodes_flows.shape then .ok b else .error "shape mismatch"
  | none => .ok nodes_flows.negate

/-- C8: in `future_attribute_decoder`, if no backward flow attribute is supplied
the per-node backward flow is exactly the negation of the per-node forward flow;
if one is supplied with a shape differing from the forward flow, the call fails
immediately with the shape-mismatch precondition error. -/
theorem back_flows_default_and_mismatch (nodes_flows : NodeTensor)
    (back_flows : Option NodeTensor) :
    (get_nodes_back_flows nodes_flows none = .ok nodes_flows.negate ∧
      ∀ i, nodes_flows.negate.data i = -(nodes_flows.data i)) ∧
    (∀ b, back_flows = some b → b.shape ≠ nodes_flows.shape →
      get_nodes_back_flows nodes_flows back_flows = .error "shape mismatch") := by
  refine ⟨⟨rfl, fun i => by simp [NodeTensor.negate]⟩, fun b hb hne => ?_⟩
  subst hb
  simp [get_nodes_back_flows, hne]

/-- A concrete `[B,T,N,2]`-shaped forward-flow tensor. -/
def flowsA : NodeTensor := ⟨[2, 2, 3, 2], fun _ => 3⟩

/-- A concrete backward-flow tensor whose shape disagrees with `flowsA`. -/
def flowsB : NodeTensor := ⟨[2, 2, 3, 3], fun _ => 4⟩

/-- C8 (witness): at the concrete mismatched pair `flowsA`/`flowsB` the decoder
fails immediately, and with no supplied backward flow it negates `flowsA`. -/
theorem back_flows_default_and_mismatch_witness :
    flowsB.shape ≠ flowsA.shape ∧
    get_nodes_back_flows flowsA (some flowsB) = .error "shape mismatch" ∧
    get_nodes_back_flows flowsA none = .ok flowsA.negate :=
  ⟨by decide,
    (back_flows_default_and_mismatch flowsA (some flowsB)).2 flowsB rfl (by decide),
    (back_flows_default_and_mismatch flowsA none).1.1⟩

/-! ## Claim C10 — construction-time parameters override call-time kwargs

`Decoder.build_model` wraps the head function as
```
def model(*args, **kwargs):
    call_params = kwargs
    call_params.update(self.params)
    return func(*args, **call_params)
```
and `Decoder.__call__` runs `kwargs['train'] = train` before invoking it, so the
head sees the call kwargs overridden by the construction-time `model_params`.
A Python keyword dictionary is embedded as a partial map from names to values. -/

/-- Python `d.update(e)` read functionally: every key of `e` wins, keys only in
`d` survive. -/
def dict_update {α : Type} (d e : String → Option α) : String → Option α :=
  fun k =>
    match e k with
    | some v => some v
    | none => d k

/-- The keyword arguments the head function receives from one `Decoder.__call__`:
the call kwargs with `'train'` set to the call's flag, then overridden by the
construction-time `self.params`. -/
def decoder_call_params {α : Type} (params call_kwargs : String → Option α)
    (train : α) : String → Option α :=
  dict_update (fun k => if k = "train" then some train else call_kwargs k) params

/-- C10: for every `Decoder`, a keyword argument supplied at call time that
shares a name with a construction-time parameter is overridden by the
construction-time value before the head function runs — including `'train'` —
and keys absent from the construction-time parameters keep their call-time
values. -/
theorem construction_params_override_call_kwargs {α : Type}
    (params call_kwargs : String → Option α) (train : α) :
    (∀ k v, params k = some v → decoder_call_params params call_kwargs train k = some v) ∧
    (∀ v, params "train" = some v →
      decoder_call_params params call_kwargs train "train" = some v) ∧
    (∀ k, params k = none → decoder_call_params params call_kwargs train k =
      if k = "train" then some train else call_kwargs k) := by
  refine ⟨fun k v h => ?_, fun v h => ?_, fun k h => ?_⟩ <;>
    simp only [decoder_call_params, dict_update, h]

/-- A construction-time parameter set fixing `train := false`. -/
def trainFalseParams : String → Option Bool :=
  fun k => if k = "train" then some false else none

/-- C10 (witness): with `train := false` fixed at construction, a call made with
`train = true` still runs the head with `train = false`. -/
theorem construction_params_override_call_kwargs_witness :
    trainFalseParams "train" = some false ∧
    decoder_call_params trainFalseParams (fun _ => none) true "train" = some false :=
  ⟨by decide,
    (construction_params_override_call_kwargs trainFalseParams (fun _ => none) true).2.1
      false (by decide)⟩

/-! ## Claim C4 — layout insertions keep named ranges disjoint and sorted

The Layout Oracle (`DimensionDict` from `psgnets.ops.dimensions`) is an external
collaborator whose implementation is not under `src/`; it is modelled from the
specification below.  The decoding heads extend it with newly synthesized
prediction ranges (`spatial_attribute_decoder` registers one range per decoded
attribute plus a remainder range; `future_attribute_decoder` registers
`pred_depths`). -/

/-- Modelled from the spec: the Layout Oracle (`DimensionDict`) is an ordered
mapping from attribute names to half-open ranges `[start, end)` into the last
dimension of the node vector.  Its invariant is that ranges are kept sorted and
non-overlapping, and inserting a name that already exists is an error. -/
structure LayoutOracle where
  ranges : List (String × ℕ × ℕ)
deriving DecidableEq, Repr

/-- The attribute names currently present in the layout. -/
def LayoutOracle.names (L : LayoutOracle) : List String := L.ranges.map Prod.fst

/-- The layout invariant: every named range is a half-open interval
`[start, end)` with `start ≤ end`, and in list order each range ends at or
before the next begins — so the ranges are sorted and pairwise disjoint. -/
def LayoutOracle.wf (L : LayoutOracle) : Prop :=
  (∀ r ∈ L.ranges, r.2.1 ≤ r.2.2) ∧
  L.ranges.Pairwise (fun x y => x.2.2 ≤ y.2.1)

instance (L : LayoutOracle) : Decidable L.wf := by
  unfold LayoutOracle.wf; infer_instance

/-- Insert a range into a sorted-disjoint range list, keeping it sorted;
`none` when the new range overlaps an existing one. -/
def insertRangeSorted (name : String) (a b : ℕ) :
    List (String × ℕ × ℕ) → Option (List (String × ℕ × ℕ))
  | [] => some [(name, a, b)]
  | r :: rs =>
    if b ≤ r.2.1 then some ((name, a, b) :: r :: rs)
    else if r.2.2 ≤ a then (insertRangeSorted name a b rs).map (fun l => r :: l)
    else none

lemma insertRangeSorted_mem (name : String) (a b : ℕ) (l l' : List (String × ℕ × ℕ))
    (h : insertRangeSorted name a b l = some l') :
    ∀ x ∈ l', x = (name, a, b) ∨ x ∈ l := by
  induction l generalizing l' with
  | nil =>
    simp only [insertRangeSorted, Option.some.injEq] at h
    subst h; simp
  | cons r rs ih =>
    simp only [insertRangeSorted] at h
    split at h
    · rw [Option.some.injEq] at h
      subst h
      intro x hx
      rcases List.mem_cons.mp hx with hx | hx
      · exact Or.inl hx
      · exact Or.inr hx
    · split at h
      · rw [Option.map_eq_some'] at h
        obtain ⟨rs', ho, rfl⟩ := h
        intro x hx
        rcases List.mem_cons.mp hx with hx | hx
        · exact Or.inr (by simp [hx])
        · rcases ih rs' ho x hx with hx' | hx'
          · exact Or.inl hx'
          · exact Or.inr (List.mem_cons_of_mem _ hx')
      · simp at h

lemma insertRangeSorted_wf (name : String) (a b : ℕ) (l l' : List (String × ℕ × ℕ))
    (hab : a ≤ b)
    (hiv : ∀ r ∈ l, r.2.1 ≤ r.2.2)
    (hp : l.Pairwise (fun x y => x.2.2 ≤ y.2.1))
    (h : insertRangeSorted name a b l = some l') :
    (∀ r ∈ l', r.2.1 ≤ r.2.2) ∧ l'.Pairwise (fun x y => x.2.2 ≤ y.2.1) := by
  induction l generalizing l' with
  | nil =>
    simp only [insertRangeSorted, Option.some.injEq] at h
    subst h
    exact ⟨by simpa using hab, by simp⟩
  | cons r rs ih =>
    rw [List.pairwise_cons] at hp
    simp only [insertRangeSorted] at h
    split at h
    · rename_i h1
      rw [Option.some.injEq] at h
      subst h
      refine ⟨?_, ?_⟩
      · intro x hx
        rcases List.mem_cons.mp hx with hx | hx
        · subst hx; exact hab
        · exact hiv x hx
      · rw [List.pairwise_cons]
        refine ⟨?_, List.pairwise_cons.mpr hp⟩
        intro x hx
        rcases List.mem_cons.mp hx with hx | hx
        · subst hx; exact h1
        · exact le_trans h1 (le_trans (hiv r (by simp)) (hp.1 x hx))
    · split at h
      · rename_i h1 h2
        rw [Option.map_eq_some'] at h
        obtain ⟨rs', ho, rfl⟩ := h
        obtain ⟨hiv', hp'⟩ := ih rs' (fun x hx => hiv x (List.mem_cons_of_mem _ hx)) hp.2 ho
        refine ⟨?_, ?_⟩
        · intro x hx
          rcases List.mem_cons.mp hx with hx | hx
          · rw [hx]; exact hiv r (by simp)
          · exact hiv' x hx
        · rw [List.pairwise_cons]
          refine ⟨?_, hp'⟩
          intro x hx
          rcases insertRangeSorted_mem name a b rs rs' ho x hx with hx' | hx'
          · subst hx'; exact h2
          · exact hp.1 x hx'
      · simp at h

/-- Modelled from the spec: `insert(name, range, postproc?)` of the Layout
Oracle.  Inserting an existing name is an error (never a silent overwrite), and
an insertion that would break the disjointness invariant is an error. -/
def LayoutOracle.insert (L : LayoutOracle) (name : String) (a b : ℕ) :
    Except String LayoutOracle :=
  if a ≤ b then
    if name ∈ L.names then .error "inserting an existing name"
    else
      match insertRangeSorted name a b L.ranges with
      | some rs => .ok ⟨rs⟩
      | none => .error "overlapping range"
  else .error "invalid range"

/-- A sequence of layout insertions, as performed by a decoding head; the first
failure aborts the decode call. -/
def LayoutOracle.insertMany (L : LayoutOracle) :
    List (String × ℕ × ℕ) → Except String LayoutOracle
  | [] => .ok L
  | op :: ops =>
    match L.insert op.1 op.2.1 op.2.2 with
    | .ok L1 => L1.insertMany ops
    | .error e => .error e

lemma insert_ok_wf (L L' : LayoutOracle) (name : String) (a b : ℕ)
    (hwf : L.wf) (h : L.insert name a b = .ok L') : L'.wf := by
  unfold LayoutOracle.insert at h
  by_cases hab : a ≤ b
  · rw [if_pos hab] at h
    by_cases hname : name ∈ L.names
    · rw [if_pos hname] at h
      exact Except.noConfusion h
    · rw [if_neg hname] at h
      split at h
      · rename_i rs ho
        rw [Except.ok.injEq] at h
        subst h
        exact insertRangeSorted_wf name a b L.ranges rs hab hwf.1 hwf.2 ho
      · exact Except.noConfusion h
  · rw [if_neg hab] at h
    exact Except.noConfusion h

lemma insert_existing_name_errors (L : LayoutOracle) (name : String) (a b : ℕ)
    (h : name ∈ L.names) : ∀ L', L.insert name a b ≠ .ok L' := by
  intro L' hc
  unfold LayoutOracle.insert at hc
  by_cases hab : a ≤ b
  · rw [if_pos hab, if_pos h] at hc
    exact Except.noConfusion hc
  · rw [if_neg hab] at hc
    exact Except.noConfusion hc

lemma insertMany_ok_wf (ops : List (String × ℕ × ℕ)) (L L' : LayoutOracle)
    (hwf : L.wf) (h : L.insertMany ops = .ok L') : L'.wf := by
  induction ops generalizing L with
  | nil =>
    simp only [LayoutOracle.insertMany, Except.ok.injEq] at h
    subst h; exact hwf
  | cons op ops ih =>
    rw [LayoutOracle.insertMany] at h
    split at h
    · rename_i L1 ho
      exact ih L1 (insert_ok_wf L L1 op.1 op.2.1 op.2.2 hwf ho) h
    · simp at h

/-- C4: for every node record's layout satisfying the sorted-disjoint invariant,
after any sequence of layout insertions performed by a decoding head that
completes successfully, the named ranges remain disjoint and sorted; and an
insertion whose name already exists never succeeds (no silent overwrite). -/
theorem layout_insertions_preserve_invariant (L : LayoutOracle)
    (ops : List (String × ℕ × ℕ)) (hwf : L.wf) :
    (∀ L', L.insertMany ops = .ok L' → L'.wf) ∧
    (∀ name a b, name ∈ L.names → ∀ L', L.insert name a b ≠ .ok L') :=
  ⟨fun L' h => insertMany_ok_wf ops L L' hwf h,
   fun name a b hn => insert_existing_name_errors L name a b hn⟩

/-- The layout of a node record before decoding: a latent-vector range followed
by the `hw_centroids` and `valid` ranges. -/
def qtrLayout : LayoutOracle :=
  ⟨[("unary_attrs", 0, 32), ("hw_centroids", 32, 34), ("valid", 35, 36)]⟩

/-- The prediction ranges `spatial_attribute_decoder` registers for
`DEFAULT_PRED_DIMS` under `method='constant'`, plus the remainder range,
placed after the existing layout. -/
def qtrPredOps : List (String × ℕ × ℕ) :=
  [("pred_depths", 36, 37), ("pred_images", 37, 40), ("pred_normals", 40, 43),
   ("unary_attrs_remainder", 43, 68)]

/-- C4 (witness): the invariant-preservation statement evaluated on the concrete
layout `qtrLayout` and the concrete insertion sequence `qtrPredOps`. -/
theorem layout_insertions_preserve_invariant_witness :
    qtrLayout.wf ∧
    ((∀ L', qtrLayout.insertMany qtrPredOps = .ok L' → L'.wf) ∧
     (∀ name a b, name ∈ qtrLayout.names → ∀ L', qtrLayout.insert name a b ≠ .ok L')) :=
  ⟨by decide, layout_insertions_preserve_invariant qtrLayout qtrPredOps (by decide)⟩

/-! ## Shape decoding (`shape_decoder`, lines 380–412)

The Depth-Order Compositor (`rendering.resolve_depth_order`) is declared out of
scope by the spec; `shape_decoder` calls it with `softmax=False` to obtain raw
per-pixel logits over nodes, then runs

```
if zero_max:
    shape_logits -= tf.reduce_max(shape_logits, axis=-1, keepdims=True)
shape_probs = tf.nn.softmax(shape_logits * kwargs.get('beta', 1.), axis=-1)
decoded = {'shapes': shape_probs if train else tf.argmax(shape_probs, axis=-1), ...}
```

The stage is embedded at one pixel: `shape_logits` is the per-node logit vector
the compositor returned there, over `N = n+1` nodes. -/

/-- `tf.nn.softmax` along the node axis at one pixel. -/
noncomputable def tf_softmax {n : ℕ} (x : Fin n → ℝ) : Fin n → ℝ :=
  fun i => Real.exp (x i) / ∑ j, Real.exp (x j)

/-- `tf.reduce_max` along the node axis at one pixel. -/
noncomputable def reduce_max {n : ℕ} (v : Fin (n+1) → ℝ) : ℝ :=
  Finset.univ.sup' Finset.univ_nonempty v

/-- `shape_probs` at one pixel: the optional `zero_max` stability shift followed
by the temperature-scaled softmax `tf.nn.softmax(shape_logits * beta)`. -/
noncomputable def shape_probs_px {n : ℕ} (zero_max : Bool) (beta : ℝ)
    (shape_logits : Fin (n+1) → ℝ) : Fin (n+1) → ℝ :=
  tf_softmax (fun i =>
    (if zero_max then shape_logits i - reduce_max shape_logits else shape_logits i) * beta)

lemma exists_index_max {n : ℕ} (v : Fin (n+1) → ℝ) : ∃ i, ∀ j, v j ≤ v i := by
  obtain ⟨i, -, hi⟩ := Finset.exists_max_image Finset.univ v ⟨0, Finset.mem_univ 0⟩
  exact ⟨i, fun j => hi j (Finset.mem_univ j)⟩

/- `tf.argmax` along the node axis at one pixel: the lowest node index
attaining the maximum value. -/
open Classical in
noncomputable def tf_argmax {n : ℕ} (v : Fin (n+1) → ℝ) : Fin (n+1) :=
  (Finset.univ.filter (fun i => ∀ j, v j ≤ v i)).min'
    ⟨(exists_index_max v).choose,
      Finset.mem_filter.mpr ⟨Finset.mem_univ _, (exists_index_max v).choose_spec⟩⟩

open Classical in
lemma tf_argmax_attains_max {n : ℕ} (v : Fin (n+1) → ℝ) : ∀ j, v j ≤ v (tf_argmax v) := by
  have hmem := Finset.min'_mem (Finset.univ.filter (fun i => ∀ j, v j ≤ v i))
    ⟨(exists_index_max v).choose,
      Finset.mem_filter.mpr ⟨Finset.mem_univ _, (exists_index_max v).choose_spec⟩⟩
  rw [Finset.mem_filter] at hmem
  exact hmem.2

lemma tf_softmax_sum_one {n : ℕ} (x : Fin (n+1) → ℝ) : ∑ i, tf_softmax x i = 1 := by
  have hS : 0 < ∑ j, Real.exp (x j) :=
    Finset.sum_pos (fun j _ => Real.exp_pos (x j)) Finset.univ_nonempty
  unfold tf_softmax
  rw [← Finset.sum_div]
  exact div_self hS.ne'

lemma tf_softmax_pos {n : ℕ} (x : Fin (n+1) → ℝ) (i : Fin (n+1)) : 0 < tf_softmax x i :=
  div_pos (Real.exp_pos _) (Finset.sum_pos (fun j _ => Real.exp_pos (x j)) Finset.univ_nonempty)

/-- The `shapes_valid` output at one pixel:
`tf.reduce_max` over the node axis of the tiled per-node validity. -/
noncomputable def shapes_valid_px {n : ℕ} (nodes_valid : Fin (n+1) → ℝ) : ℝ :=
  Finset.univ.sup' Finset.univ_nonempty nodes_valid

/-- The `'shapes'` output at one pixel:
`shape_probs if train else tf.argmax(shape_probs, axis=-1)`. -/
noncomputable def shape_decoder_shapes {n : ℕ} (train zero_max : Bool) (beta : ℝ)
    (shape_logits : Fin (n+1) → ℝ) : (Fin (n+1) → ℝ) ⊕ Fin (n+1) :=
  if train then Sum.inl (shape_probs_px zero_max beta shape_logits)
  else Sum.inr (tf_argmax (shape_probs_px zero_max beta shape_logits))

/-- Modelled from the spec: `rendering.render_attrs_from_segment_weights` is not
under `src/`; per the spec's Depth-Order Compositor contract, compositing an
attribute renders it as the per-pixel distribution-weighted sum of the attribute
across contesting nodes. -/
noncomputable def render_attrs_from_segment_weights {n : ℕ}
    (weights nodes_attr : Fin (n+1) → ℝ) : ℝ :=
  ∑ i, weights i * nodes_attr i

/-- One composited attribute of `shape_decoder` at one pixel: the render from
`shape_probs` followed by the attribute's fixed post-processing function. -/
noncomputable def shape_decoder_attr {n : ℕ} (func : ℝ → ℝ)
    (nodes_attr : Fin (n+1) → ℝ) (zero_max : Bool) (beta : ℝ)
    (shape_logits : Fin (n+1) → ℝ) : ℝ :=
  func (render_attrs_from_segment_weights
    (shape_probs_px zero_max beta shape_logits) nodes_attr)

/-! ## Claim C2 — normalization of the shape distribution -/

/-- C2 (counterexample): at a pixel where no node is valid (`shapes_valid` is 0,
here with both nodes invalid), `shape_probs` is *not* the zero vector: being a
softmax output it still sums to 1 — here it assigns probability `1/2 ≠ 0` to node
0 — whatever logits the depth-order compositor produced for the invalid nodes. -/
theorem shape_probs_zero_vector_cex :
    shapes_valid_px ![(0 : ℝ), 0] = 0 ∧
    shape_probs_px false 1 ![(0 : ℝ), 0] 0 ≠ 0 := by
  constructor
  · refine le_antisymm (Finset.sup'_le _ _ fun i _ => ?_) ?_
    · fin_cases i <;> simp
    · exact Finset.le_sup' ![(0 : ℝ), 0] (Finset.mem_univ 0)
  · simp [shape_probs_px, tf_softmax, Fin.sum_univ_two, Real.exp_zero]

/-- C2 (amended): in `shape_decoder`, for every input the output shape
distribution `shape_probs` sums to 1 over the node axis at *every* pixel —
whether or not any node is valid — and every entry is strictly positive, so it is
never the zero vector; pixels without a valid node must be masked with the
separate `shapes_valid` output instead. -/
theorem shape_probs_normalized {n : ℕ} (zero_max : Bool) (beta : ℝ)
    (shape_logits : Fin (n+1) → ℝ) :
    (∑ i, shape_probs_px zero_max beta shape_logits i = 1) ∧
    ∀ i, 0 < shape_probs_px zero_max beta shape_logits i :=
  ⟨tf_softmax_sum_one _, fun i => tf_softmax_pos _ i⟩

/-! ## Claim C3 — hard assignment at evaluation time, soft at training time -/

/-- C3: in `shape_decoder`, with `train=False` the `'shapes'` output at every
pixel is the single integer node index arg-maximizing `shape_probs` over the node
axis (the index attains the maximum probability); with `train=True` it is the
soft softmax distribution with temperature factor `beta`, and every requested
attribute is composited with that same distribution. -/
theorem shape_decoder_train_eval_modes {n : ℕ} (zero_max : Bool) (beta : ℝ)
    (shape_logits : Fin (n+1) → ℝ) (func : ℝ → ℝ) (nodes_attr : Fin (n+1) → ℝ) :
    (shape_decoder_shapes false zero_max beta shape_logits =
        Sum.inr (tf_argmax (shape_probs_px zero_max beta shape_logits)) ∧
      ∀ j, shape_probs_px zero_max beta shape_logits j ≤
        shape_probs_px zero_max beta shape_logits
          (tf_argmax (shape_probs_px zero_max beta shape_logits))) ∧
    (shape_decoder_shapes true zero_max beta shape_logits =
        Sum.inl (shape_probs_px zero_max beta shape_logits) ∧
      shape_decoder_attr func nodes_attr zero_max beta shape_logits =
        func (∑ i, shape_probs_px zero_max beta shape_logits i * nodes_attr i)) :=
  ⟨⟨rfl, tf_argmax_attains_max _⟩, rfl, rfl⟩

end PSGNets
